import Mathlib

/-!
Shallow embedding of the runtime surface of the `ddd-rs` crate:

* the aggregate-root shape produced by the `AggregateRoot`/`Entity` derive
  macros (an identity field, arbitrary further fields, and a `domain_events`
  buffer), with `register_domain_event` / `drain_domain_events`
  (`src/ddd-rs-derive/src/aggregate_root.rs`, `entity.rs`);
* the in-memory repository over a hash map
  (`src/ddd-rs/src/infrastructure/memory/repository.rs`);
* the `add_range`/`update_range`/`delete_range` default methods of the
  `Repository` trait (`src/ddd-rs/src/application/repository.rs`);
* the two domain-event dispatch decorators: `DomainRepository`
  (`src/ddd-rs/src/infrastructure/persistence/domain.rs`) and `RepositoryEx`
  (`src/ddd-rs/src/application/repository.rs`);
* the comparison code generated by the `ValueObject` derive macro for structs
  and for newtype enums (`src/ddd-rs-derive/src/value_object.rs`).

Rust's `HashMap` is modelled as an association list with at-most-one-entry-
per-key maintained by the insert operation; async calls are sequential state
passing; `crate::Result<T>` is `Except ε T` with an abstract error type `ε`;
handlers (trait objects with interior mutability in Rust) are state-threading
functions over an abstract handler-state type `η`.
-/

variable {Id Ev F A B C T η ε σ : Type}

/-- The shape of a struct deriving `AggregateRoot` + `Entity`: an `id` field,
all remaining non-identity fields collapsed into `fields : F`, and the
`domain_events : Vec<_>` buffer (`aggregate_root.rs`, `derive_struct`). -/
structure AggregateRoot (Id Ev F : Type) where
  id : Id
  fields : F
  domain_events : List Ev
deriving Repr, DecidableEq

/-- `fn register_domain_event(&mut self, event)` generated by the derive
macro: `self.domain_events.push(event.into())`. -/
def AggregateRoot.register_domain_event (a : AggregateRoot Id Ev F) (e : Ev) :
    AggregateRoot Id Ev F :=
  { a with domain_events := a.domain_events ++ [e] }

/-- `fn drain_domain_events(&mut self)` generated by the derive macro:
`self.domain_events.drain(..).collect()` — returns the buffer contents in
FIFO order and leaves the buffer empty. -/
def AggregateRoot.drain_domain_events (a : AggregateRoot Id Ev F) :
    List Ev × AggregateRoot Id Ev F :=
  (a.domain_events, { a with domain_events := [] })

/-- `take_domain_events` of the `AggregateRootEx` trait
(`src/ddd-rs/src/domain/aggregate.rs`): clears all domain events from the
aggregate, returning them in order of occurrence (the documented reference
implementation drains the buffer, exactly like `drain_domain_events`). -/
def AggregateRoot.take_domain_events (a : AggregateRoot Id Ev F) :
    List Ev × AggregateRoot Id Ev F :=
  (a.domain_events, { a with domain_events := [] })

/-- The `PartialEq` impl generated by the `Entity` derive macro
(`entity.rs`, `derive_struct`): `self.id() == other.id()`. -/
def AggregateRoot.entity_eq [DecidableEq Id] (a b : AggregateRoot Id Ev F) :
    Bool :=
  a.id = b.id

/-! ### The backing `HashMap`, as an association list keyed by identity -/

/-- Repository store: the `HashMap<<T as Entity>::Id, T>` behind the lock in
`InMemoryRepository`, modelled as an association list. -/
def Store (Id Ev F : Type) : Type := List (Id × AggregateRoot Id Ev F)

/-- `HashMap::insert`: if the key is present its value is replaced (one entry
per key), otherwise a new entry is created. -/
def hmInsert [DecidableEq Id] (k : Id) (v : A) : List (Id × A) → List (Id × A)
  | [] => [(k, v)]
  | (k', v') :: rest =>
    if k' = k then (k, v) :: rest else (k', v') :: hmInsert k v rest

/-- `HashMap::get`: the value stored under the key, if any. -/
def hmGet [DecidableEq Id] (k : Id) : List (Id × A) → Option A
  | [] => none
  | (k', v') :: rest => if k' = k then some v' else hmGet k rest

/-- `HashMap::remove`: drops the entry stored under the key, if any. -/
def hmRemove [DecidableEq Id] (k : Id) : List (Id × A) → List (Id × A)
  | [] => []
  | (k', v') :: rest => if k' = k then rest else (k', v') :: hmRemove k rest

/-- The map invariant of a `HashMap`: keys are pairwise distinct, i.e. at
most one entry per identity. -/
def keysNodup (s : List (Id × A)) : Prop :=
  (s.map Prod.fst).Nodup

/-! ### `InMemoryRepository` (`infrastructure/memory/repository.rs`) -/

/-- `InMemoryRepository::add`: `wo_entities.insert(entity.id().clone(),
entity.clone()); Ok(entity)`. -/
def InMemoryRepository.add [DecidableEq Id] (s : Store Id Ev F)
    (entity : AggregateRoot Id Ev F) :
    Store Id Ev F × Except ε (AggregateRoot Id Ev F) :=
  (hmInsert entity.id entity s, .ok entity)

/-- `InMemoryRepository::update`: `self.add(entity).await`. -/
def InMemoryRepository.update [DecidableEq Id] (s : Store Id Ev F)
    (entity : AggregateRoot Id Ev F) :
    Store Id Ev F × Except ε (AggregateRoot Id Ev F) :=
  InMemoryRepository.add s entity

/-- `InMemoryRepository::delete`: `wo_entities.remove(entity.id()); Ok(())`. -/
def InMemoryRepository.delete [DecidableEq Id] (s : Store Id Ev F)
    (entity : AggregateRoot Id Ev F) : Store Id Ev F × Except ε Unit :=
  (hmRemove entity.id s, .ok ())

/-- `InMemoryRepository::get_by_id`: `ro_entities.get(&id).cloned()`. -/
def InMemoryRepository.get_by_id [DecidableEq Id] (s : Store Id Ev F)
    (id : Id) : Except ε (Option (AggregateRoot Id Ev F)) :=
  .ok (hmGet id s)

/-! ### Basic facts about the hash-map model -/

theorem hmGet_hmInsert [DecidableEq Id] (k q : Id) (v : A)
    (s : List (Id × A)) :
    hmGet q (hmInsert k v s) = if q = k then some v else hmGet q s := by
  induction s with
  | nil =>
    by_cases h : q = k
    · subst h; simp [hmInsert, hmGet]
    · have h' : ¬ k = q := fun hh => h hh.symm
      simp [hmInsert, hmGet, h, h']
  | cons p rest ih =>
    obtain ⟨k', v'⟩ := p
    by_cases hk : k' = k
    · subst hk
      by_cases h : q = k'
      · subst h; simp [hmInsert, hmGet]
      · have h' : ¬ k' = q := fun hh => h hh.symm
        simp [hmInsert, hmGet, h, h']
    · by_cases hq : k' = q
      · subst hq
        simp [hmInsert, hmGet, hk]
      · simp [hmInsert, hmGet, hk, hq, ih]

theorem hmGet_hmInsert_self [DecidableEq Id] (k : Id) (v : A)
    (s : List (Id × A)) : hmGet k (hmInsert k v s) = some v := by
  simp [hmGet_hmInsert]

/-! ### `Repository` trait default batch methods (`application/repository.rs`)

The singular operations are abstract (`async fn add/update/delete` of the
implementing type), modelled as state-passing functions `σ → T → σ × Except ε _`
over an abstract repository state `σ`. -/

/-- `Repository::add_range` default body: for each entity, `self.add(entity)
.await.map(|e| added_entities.push(e))?`, then `Ok(added_entities)`. -/
def Repository.add_range (add1 : σ → T → σ × Except ε T) :
    σ → List T → σ × Except ε (List T)
  | s, [] => (s, .ok [])
  | s, x :: xs =>
    match add1 s x with
    | (s', .ok e) =>
      match Repository.add_range add1 s' xs with
      | (s'', .ok es) => (s'', .ok (e :: es))
      | (s'', .error err) => (s'', .error err)
    | (s', .error err) => (s', .error err)

/-- `Repository::update_range` default body: the same loop as `add_range`,
calling `self.update(entity)` instead. -/
def Repository.update_range (update1 : σ → T → σ × Except ε T) :
    σ → List T → σ × Except ε (List T)
  | s, [] => (s, .ok [])
  | s, x :: xs =>
    match update1 s x with
    | (s', .ok e) =>
      match Repository.update_range update1 s' xs with
      | (s'', .ok es) => (s'', .ok (e :: es))
      | (s'', .error err) => (s'', .error err)
    | (s', .error err) => (s', .error err)

/-- `Repository::delete_range` default body: `self.delete(entity).await?` for
each entity, then `Ok(())`. -/
def Repository.delete_range (delete1 : σ → T → σ × Except ε Unit) :
    σ → List T → σ × Except ε Unit
  | s, [] => (s, .ok ())
  | s, x :: xs =>
    match delete1 s x with
    | (s', .ok _) => Repository.delete_range delete1 s' xs
    | (s', .error err) => (s', .error err)

/-- Specification-side runner: applies the singular operation to each list
element in order, returning the final state and the collected results, or
`none` as soon as one call fails.  Used to phrase hypotheses about a prefix
of a batch succeeding. -/
def runOk (op : σ → T → σ × Except ε A) : σ → List T → Option (σ × List A)
  | s, [] => some (s, [])
  | s, x :: xs =>
    match op s x with
    | (s', .ok a) =>
      match runOk op s' xs with
      | some (s'', as) => some (s'', a :: as)
      | none => none
    | (_, .error _) => none

/-! ### The `DomainRepository` decorator
(`infrastructure/persistence/domain.rs`)

The base repository is abstract (`TRepository: Repository<T>`), modelled as
state-passing functions over `σ`; the domain-event handler
(`TDomainEventHandler: DomainEventHandler<..>`, `&self` with interior
mutability) is modelled as a state-passing function over a handler state `η`. -/

/-- The `for event in domain_events { self.domain_event_handler.handle(event)
.await?; }` loop shared by `DomainRepository::add/update/delete`. -/
def handleLoop (handle : η → Ev → η × Except ε Unit) :
    η → List Ev → η × Except ε Unit
  | h, [] => (h, .ok ())
  | h, e :: es =>
    match handle h e with
    | (h', .ok _) => handleLoop handle h' es
    | (h', .error err) => (h', .error err)

/-- `DomainRepository::add`: drain the entity's domain events, perform the
underlying `add` (propagating its error with `?`), then handle each drained
event in order (propagating the first handler error with `?`). -/
def DomainRepository.add
    (baseAdd : σ → AggregateRoot Id Ev F → σ × Except ε (AggregateRoot Id Ev F))
    (handle : η → Ev → η × Except ε Unit) (s : σ) (h : η)
    (entity : AggregateRoot Id Ev F) :
    σ × η × Except ε (AggregateRoot Id Ev F) :=
  let (domain_events, entity) := entity.drain_domain_events
  match baseAdd s entity with
  | (s', .error err) => (s', h, .error err)
  | (s', .ok result) =>
    match handleLoop handle h domain_events with
    | (h', .ok _) => (s', h', .ok result)
    | (h', .error err) => (s', h', .error err)

/-- `DomainRepository::update`: same chaining as `add`, over the underlying
`update`. -/
def DomainRepository.update
    (baseUpdate : σ → AggregateRoot Id Ev F → σ × Except ε (AggregateRoot Id Ev F))
    (handle : η → Ev → η × Except ε Unit) (s : σ) (h : η)
    (entity : AggregateRoot Id Ev F) :
    σ × η × Except ε (AggregateRoot Id Ev F) :=
  let (domain_events, entity) := entity.drain_domain_events
  match baseUpdate s entity with
  | (s', .error err) => (s', h, .error err)
  | (s', .ok result) =>
    match handleLoop handle h domain_events with
    | (h', .ok _) => (s', h', .ok result)
    | (h', .error err) => (s', h', .error err)

/-- `DomainRepository::delete`: same chaining as `add`, over the underlying
`delete` (unit result). -/
def DomainRepository.delete
    (baseDelete : σ → AggregateRoot Id Ev F → σ × Except ε Unit)
    (handle : η → Ev → η × Except ε Unit) (s : σ) (h : η)
    (entity : AggregateRoot Id Ev F) : σ × η × Except ε Unit :=
  let (domain_events, entity) := entity.drain_domain_events
  match baseDelete s entity with
  | (s', .error err) => (s', h, .error err)
  | (s', .ok result) =>
    match handleLoop handle h domain_events with
    | (h', .ok _) => (s', h', .ok result)
    | (h', .error err) => (s', h', .error err)

/-! ### The `RepositoryEx` decorator (`application/repository.rs`)

Its `DomainEventHandler<T>` receives and returns the entity:
`handle(&self, entity, event) -> Result<T>`. -/

/-- The `for event in domain_events { entity = self.domain_event_handler
.handle(entity, event).await?; }` loop inside
`RepositoryEx::apply_domain_events`. -/
def applyLoop (handle : η → A → Ev → η × Except ε A) :
    η → A → List Ev → η × Except ε A
  | h, a, [] => (h, .ok a)
  | h, a, e :: es =>
    match handle h a e with
    | (h', .ok a') => applyLoop handle h' a' es
    | (h', .error err) => (h', .error err)

/-- `RepositoryEx::apply_domain_events`: take the entity's domain events,
then fold the handler over them, threading the entity through. -/
def RepositoryEx.apply_domain_events
    (handle : η → AggregateRoot Id Ev F → Ev → η × Except ε (AggregateRoot Id Ev F))
    (h : η) (entity : AggregateRoot Id Ev F) :
    η × Except ε (AggregateRoot Id Ev F) :=
  let (domain_events, entity) := entity.take_domain_events
  applyLoop handle h entity domain_events

/-- `RepositoryEx::add`: `let entity = self.repository.add(entity).await?;
self.apply_domain_events(entity).await` — the underlying mutation runs
FIRST, the events are drained from the returned entity afterwards. -/
def RepositoryEx.add
    (baseAdd : σ → AggregateRoot Id Ev F → σ × Except ε (AggregateRoot Id Ev F))
    (handle : η → AggregateRoot Id Ev F → Ev → η × Except ε (AggregateRoot Id Ev F))
    (s : σ) (h : η) (entity : AggregateRoot Id Ev F) :
    σ × η × Except ε (AggregateRoot Id Ev F) :=
  match baseAdd s entity with
  | (s', .error err) => (s', h, .error err)
  | (s', .ok entity') =>
    match RepositoryEx.apply_domain_events handle h entity' with
    | (h', r) => (s', h', r)

/-- `RepositoryEx::update`: same shape as `RepositoryEx::add`, over the
underlying `update`. -/
def RepositoryEx.update
    (baseUpdate : σ → AggregateRoot Id Ev F → σ × Except ε (AggregateRoot Id Ev F))
    (handle : η → AggregateRoot Id Ev F → Ev → η × Except ε (AggregateRoot Id Ev F))
    (s : σ) (h : η) (entity : AggregateRoot Id Ev F) :
    σ × η × Except ε (AggregateRoot Id Ev F) :=
  match baseUpdate s entity with
  | (s', .error err) => (s', h, .error err)
  | (s', .ok entity') =>
    match RepositoryEx.apply_domain_events handle h entity' with
    | (h', r) => (s', h', r)

/-- `RepositoryEx::delete`: `let entity = self.apply_domain_events(entity)
.await?; self.repository.delete(entity).await` — here the events are
handled BEFORE the underlying delete. -/
def RepositoryEx.delete
    (baseDelete : σ → AggregateRoot Id Ev F → σ × Except ε Unit)
    (handle : η → AggregateRoot Id Ev F → Ev → η × Except ε (AggregateRoot Id Ev F))
    (s : σ) (h : η) (entity : AggregateRoot Id Ev F) :
    σ × η × Except ε Unit :=
  match RepositoryEx.apply_domain_events handle h entity with
  | (h', .error err) => (s, h', .error err)
  | (h', .ok entity') =>
    match baseDelete s entity' with
    | (s', r) => (s', h', r)

/-- A domain-event handler that records the delivered events in its state
and always succeeds (the shape of the mock handler in the crate's doctest,
which counts its calls). -/
def recHandle : List Ev → Ev → List Ev × Except ε Unit :=
  fun log e => (log ++ [e], .ok ())

/-- A `RepositoryEx`-style handler that records the delivered events in its
state, returns the entity unchanged, and always succeeds. -/
def recHandleEx : List Ev → A → Ev → List Ev × Except ε A :=
  fun log a e => (log ++ [e], .ok a)

/-! ### `ValueObject` derive output (`ddd-rs-derive/src/value_object.rs`)

`derive_struct` emits, for the designated `eq_component` fields in declared
order, `match self.f.partial_cmp(&other.f) { Some(Equal) => {}, ord => return
ord }`, falling through to `Some(Equal)`; `PartialEq` is `matches!(self
.partial_cmp(other), Some(Equal))`.  `VO` is the representative struct shape:
two `eq_component` fields `fa`, `fb` (declared in this order) and one
non-component field `fc`; the component types come with abstract
`partial_cmp` functions `cA`, `cB`. -/

/-- Representative struct deriving `ValueObject`: `fa` and `fb` are marked
`#[eq_component]`, `fc` is not. -/
structure VO (A B C : Type) where
  fa : A
  fb : B
  fc : C
deriving Repr, DecidableEq

/-- The generated `PartialOrd::partial_cmp` for `VO`: compare `fa`, return
any non-`Equal` outcome (including `None`), else compare `fb` likewise, else
`Some(Equal)`. -/
def VO.pcmp (cA : A → A → Option Ordering) (cB : B → B → Option Ordering)
    (x y : VO A B C) : Option Ordering :=
  match cA x.fa y.fa with
  | some Ordering.eq =>
    match cB x.fb y.fb with
    | some Ordering.eq => some Ordering.eq
    | o => o
  | o => o

/-- The generated `PartialEq::eq` for `VO`:
`matches!(self.partial_cmp(other), Some(Ordering::Equal))`. -/
def VO.vo_eq (cA : A → A → Option Ordering) (cB : B → B → Option Ordering)
    (x y : VO A B C) : Bool :=
  match VO.pcmp cA cB x y with
  | some Ordering.eq => true
  | _ => false

/-- Representative newtype enum deriving `ValueObject`: two variants, each
wrapping one value (`derive_enum_newtype`). -/
inductive NT (A B : Type) where
  | va : A → NT A B
  | vb : B → NT A B
deriving Repr, DecidableEq

/-- The generated `PartialOrd::partial_cmp` for a newtype enum: same
variants compare their payloads, different variants yield `None`. -/
def NT.pcmp (cA : A → A → Option Ordering) (cB : B → B → Option Ordering) :
    NT A B → NT A B → Option Ordering
  | .va l, .va r => cA l r
  | .vb l, .vb r => cB l r
  | _, _ => none

/-- The generated `PartialEq::eq` for a newtype enum:
`matches!(self.partial_cmp(other), Some(Ordering::Equal))`. -/
def NT.vo_eq (cA : A → A → Option Ordering) (cB : B → B → Option Ordering)
    (x y : NT A B) : Bool :=
  match NT.pcmp cA cB x y with
  | some Ordering.eq => true
  | _ => false

/-- `partial_cmp` of a totally ordered payload type (e.g. `u32`): always
`Some`. -/
def natPcmp : Nat → Nat → Option Ordering :=
  fun m n => some (compare m n)

/-! ### Helper lemmas -/

theorem handleLoop_rec (log evs : List Ev) :
    handleLoop (recHandle (ε := ε)) log evs = (log ++ evs, .ok ()) := by
  induction evs generalizing log with
  | nil => simp [handleLoop]
  | cons e es ih => simp [handleLoop, recHandle, ih]

theorem applyLoop_rec (log evs : List Ev) (a : A) :
    applyLoop (recHandleEx (ε := ε)) log a evs = (log ++ evs, .ok a) := by
  induction evs generalizing log with
  | nil => simp [applyLoop]
  | cons e es ih => simp [applyLoop, recHandleEx, ih]

theorem handleLoop_split (handle : η → Ev → η × Except ε Unit)
    (evs1 evs2 : List Ev) (e : Ev) (h h1 he : η) (err : ε)
    (h1ok : handleLoop handle h evs1 = (h1, .ok ()))
    (hfail : handle h1 e = (he, .error err)) :
    handleLoop handle h (evs1 ++ e :: evs2) = (he, .error err) := by
  induction evs1 generalizing h with
  | nil =>
    simp [handleLoop] at h1ok
    simp [handleLoop, h1ok, hfail]
  | cons e' es' ih =>
    simp only [handleLoop] at h1ok ⊢
    match hh : handle h e' with
    | (h', .ok _) =>
      simp [hh] at h1ok ⊢
      exact ih h' h1ok
    | (h', .error err') =>
      simp [hh] at h1ok

theorem applyLoop_split (handle : η → A → Ev → η × Except ε A)
    (evs1 evs2 : List Ev) (e : Ev) (h h1 he : η) (a a1 : A) (err : ε)
    (h1ok : applyLoop handle h a evs1 = (h1, .ok a1))
    (hfail : handle h1 a1 e = (he, .error err)) :
    applyLoop handle h a (evs1 ++ e :: evs2) = (he, .error err) := by
  induction evs1 generalizing h a with
  | nil =>
    simp [applyLoop] at h1ok
    simp [applyLoop, h1ok.1, h1ok.2, hfail]
  | cons e' es' ih =>
    simp only [applyLoop] at h1ok ⊢
    match hh : handle h a e' with
    | (h', .ok a') =>
      simp [hh] at h1ok ⊢
      exact ih h' a' h1ok
    | (h', .error err') =>
      simp [hh] at h1ok

theorem add_range_runOk (add1 : σ → T → σ × Except ε T) (s s' : σ)
    (l : List T) (vs : List T) (h : runOk add1 s l = some (s', vs)) :
    Repository.add_range add1 s l = (s', .ok vs) := by
  induction l generalizing s vs with
  | nil =>
    simp [runOk] at h
    simp [Repository.add_range, h.1, h.2]
  | cons x xs ih =>
    simp only [runOk] at h
    match hx : add1 s x with
    | (s1, .ok a) =>
      simp [hx] at h
      match hr : runOk add1 s1 xs with
      | some (s2, vs2) =>
        simp [hr] at h
        obtain ⟨rfl, rfl⟩ := h
        simp [Repository.add_range, hx, ih s1 vs2 hr]
      | none => simp [hr] at h
    | (s1, .error err) => simp [hx] at h

theorem add_range_fail (add1 : σ → T → σ × Except ε T) (s s1 s1x : σ)
    (l1 l2 : List T) (vs : List T) (x : T) (err : ε)
    (hpre : runOk add1 s l1 = some (s1, vs))
    (hx : add1 s1 x = (s1x, .error err)) :
    Repository.add_range add1 s (l1 ++ x :: l2) = (s1x, .error err) := by
  induction l1 generalizing s vs with
  | nil =>
    simp [runOk] at hpre
    obtain ⟨rfl, rfl⟩ := hpre
    simp [Repository.add_range, hx]
  | cons y ys ih =>
    simp only [runOk] at hpre
    match hy : add1 s y with
    | (sy, .ok a) =>
      simp [hy] at hpre
      match hr : runOk add1 sy ys with
      | some (s2, vs2) =>
        simp [hr] at hpre
        obtain ⟨rfl, rfl⟩ := hpre
        simp [Repository.add_range, hy, ih sy vs2 hr]
      | none => simp [hr] at hpre
    | (sy, .error e) => simp [hy] at hpre

theorem update_range_runOk (update1 : σ → T → σ × Except ε T) (s s' : σ)
    (l : List T) (vs : List T) (h : runOk update1 s l = some (s', vs)) :
    Repository.update_range update1 s l = (s', .ok vs) := by
  induction l generalizing s vs with
  | nil =>
    simp [runOk] at h
    simp [Repository.update_range, h.1, h.2]
  | cons x xs ih =>
    simp only [runOk] at h
    match hx : update1 s x with
    | (s1, .ok a) =>
      simp [hx] at h
      match hr : runOk update1 s1 xs with
      | some (s2, vs2) =>
        simp [hr] at h
        obtain ⟨rfl, rfl⟩ := h
        simp [Repository.update_range, hx, ih s1 vs2 hr]
      | none => simp [hr] at h
    | (s1, .error err) => simp [hx] at h

theorem update_range_fail (update1 : σ → T → σ × Except ε T) (s s1 s1x : σ)
    (l1 l2 : List T) (vs : List T) (x : T) (err : ε)
    (hpre : runOk update1 s l1 = some (s1, vs))
    (hx : update1 s1 x = (s1x, .error err)) :
    Repository.update_range update1 s (l1 ++ x :: l2) = (s1x, .error err) := by
  induction l1 generalizing s vs with
  | nil =>
    simp [runOk] at hpre
    obtain ⟨rfl, rfl⟩ := hpre
    simp [Repository.update_range, hx]
  | cons y ys ih =>
    simp only [runOk] at hpre
    match hy : update1 s y with
    | (sy, .ok a) =>
      simp [hy] at hpre
      match hr : runOk update1 sy ys with
      | some (s2, vs2) =>
        simp [hr] at hpre
        obtain ⟨rfl, rfl⟩ := hpre
        simp [Repository.update_range, hy, ih sy vs2 hr]
      | none => simp [hr] at hpre
    | (sy, .error e) => simp [hy] at hpre

theorem delete_range_runOk (delete1 : σ → T → σ × Except ε Unit) (s s' : σ)
    (l : List T) (vs : List Unit) (h : runOk delete1 s l = some (s', vs)) :
    Repository.delete_range delete1 s l = (s', .ok ()) := by
  induction l generalizing s vs with
  | nil =>
    simp [runOk] at h
    simp [Repository.delete_range, h.1]
  | cons x xs ih =>
    simp only [runOk] at h
    match hx : delete1 s x with
    | (s1, .ok a) =>
      simp [hx] at h
      match hr : runOk delete1 s1 xs with
      | some (s2, vs2) =>
        simp [hr] at h
        obtain ⟨rfl, rfl⟩ := h
        simp [Repository.delete_range, hx, ih s1 vs2 hr]
      | none => simp [hr] at h
    | (s1, .error err) => simp [hx] at h

theorem delete_range_fail (delete1 : σ → T → σ × Except ε Unit) (s s1 s1x : σ)
    (l1 l2 : List T) (vs : List Unit) (x : T) (err : ε)
    (hpre : runOk delete1 s l1 = some (s1, vs))
    (hx : delete1 s1 x = (s1x, .error err)) :
    Repository.delete_range delete1 s (l1 ++ x :: l2) = (s1x, .error err) := by
  induction l1 generalizing s vs with
  | nil =>
    simp [runOk] at hpre
    obtain ⟨rfl, rfl⟩ := hpre
    simp [Repository.delete_range, hx]
  | cons y ys ih =>
    simp only [runOk] at hpre
    match hy : delete1 s y with
    | (sy, .ok a) =>
      simp [hy] at hpre
      match hr : runOk delete1 sy ys with
      | some (s2, vs2) =>
        simp [hr] at hpre
        obtain ⟨rfl, rfl⟩ := hpre
        simp [Repository.delete_range, hy, ih sy vs2 hr]
      | none => simp [hr] at hpre
    | (sy, .error e) => simp [hy] at hpre

theorem hmInsert_keys [DecidableEq Id] (k : Id) (v : A) (s : List (Id × A)) :
    (hmInsert k v s).map Prod.fst =
      if k ∈ s.map Prod.fst then s.map Prod.fst
      else s.map Prod.fst ++ [k] := by
  induction s with
  | nil => simp [hmInsert]
  | cons p rest ih =>
    obtain ⟨k', v'⟩ := p
    by_cases h : k' = k
    · subst h; simp [hmInsert]
    · have h' : ¬ k = k' := fun hh => h hh.symm
      by_cases hm : k ∈ rest.map Prod.fst
      · simp [hmInsert, h, ih, hm, h']
      · simp [hmInsert, h, ih, hm, h']

theorem keysNodup_hmInsert [DecidableEq Id] (k : Id) (v : A)
    (s : List (Id × A)) (hs : keysNodup s) : keysNodup (hmInsert k v s) := by
  unfold keysNodup at *
  rw [hmInsert_keys]
  by_cases hm : k ∈ s.map Prod.fst
  · simpa [hm]
  · simp [hm, List.nodup_append, hs]

theorem hmRemove_sublist [DecidableEq Id] (k : Id) (s : List (Id × A)) :
    (hmRemove k s).Sublist s := by
  induction s with
  | nil => simp [hmRemove]
  | cons p rest ih =>
    obtain ⟨k', v'⟩ := p
    by_cases h : k' = k
    · simp only [hmRemove, if_pos h]
      exact List.sublist_cons_self (k', v') rest
    · simpa [hmRemove, h] using ih.cons₂ (k', v')

theorem keysNodup_hmRemove [DecidableEq Id] (k : Id) (s : List (Id × A))
    (hs : keysNodup s) : keysNodup (hmRemove k s) := by
  unfold keysNodup at *
  exact hs.sublist ((hmRemove_sublist k s).map Prod.fst)

theorem hmGet_eq_none [DecidableEq Id] (k : Id) (s : List (Id × A))
    (h : k ∉ s.map Prod.fst) : hmGet k s = none := by
  induction s with
  | nil => simp [hmGet]
  | cons p rest ih =>
    obtain ⟨k', v'⟩ := p
    simp only [List.map_cons, List.mem_cons, not_or] at h
    have h1 : ¬ k' = k := fun hh => h.1 hh.symm
    simp [hmGet, h1, ih h.2]

theorem hmGet_hmRemove_self [DecidableEq Id] (k : Id) (s : List (Id × A))
    (hs : keysNodup s) : hmGet k (hmRemove k s) = none := by
  induction s with
  | nil => simp [hmRemove, hmGet]
  | cons p rest ih =>
    obtain ⟨k', v'⟩ := p
    unfold keysNodup at hs
    rw [List.map_cons, List.nodup_cons] at hs
    by_cases h : k' = k
    · subst h
      simpa [hmRemove] using hmGet_eq_none k' rest hs.1
    · simp [hmRemove, hmGet, h, ih hs.2]

theorem hmRemove_not_mem [DecidableEq Id] (k : Id) (s : List (Id × A))
    (h : hmGet k s = none) : hmRemove k s = s := by
  induction s with
  | nil => simp [hmRemove]
  | cons p rest ih =>
    obtain ⟨k', v'⟩ := p
    by_cases hk : k' = k
    · simp [hmGet, hk] at h
    · simp only [hmGet, if_neg hk] at h
      simp [hmRemove, hk, ih h]

theorem keysNodup_atMostOne [DecidableEq Id] (s : List (Id × A)) (k : Id)
    (hs : keysNodup s) : (s.countP fun p => decide (p.1 = k)) ≤ 1 := by
  induction s with
  | nil => simp
  | cons p rest ih =>
    obtain ⟨k', v'⟩ := p
    unfold keysNodup at hs
    rw [List.map_cons, List.nodup_cons] at hs
    by_cases h : k' = k
    · subst h
      have hz : rest.countP (fun p => decide (p.1 = k')) = 0 := by
        rw [List.countP_eq_zero]
        intro a ha
        simp only [decide_eq_true_eq]
        intro hh
        exact hs.1 (List.mem_map.2 ⟨a, ha, hh⟩)
      simp [List.countP_cons, hz]
    · have := ih hs.2
      simp only [List.countP_cons, decide_eq_true_eq, h]
      simpa using this

/-! ### Claims -/

/-- C4: In-memory repository round-trip — for every aggregate `x` and every
repository state, performing `add(x)` and then `get_by_id(x.id())` returns
`Some(x)` with the same observable field values (the very same aggregate
value, identity, fields and event buffer included). -/
theorem claim_C4 [DecidableEq Id] (s : Store Id Ev F)
    (x : AggregateRoot Id Ev F) :
    InMemoryRepository.get_by_id (ε := ε)
        (InMemoryRepository.add (ε := ε) s x).1 x.id = .ok (some x) := by
  simp [InMemoryRepository.get_by_id, InMemoryRepository.add,
    hmGet_hmInsert_self]

/-- C5: the in-memory store keeps at most one entry per identity (distinct
keys are preserved by all three mutators, and distinct keys give at most one
entry per identity); `add` and `update` both upsert under the aggregate's
identity (`update` coincides with `add`, and an `update` after an `add` with
the same identity replaces the stored value entirely); `delete` removes the
entry for the aggregate's identity when present and is a successful no-op
(result `Ok(())`, store unchanged) when absent. -/
theorem claim_C5 [DecidableEq Id] :
    keysNodup ([] : Store Id Ev F)
    ∧ (∀ (s : Store Id Ev F) (x : AggregateRoot Id Ev F), keysNodup s →
        keysNodup (InMemoryRepository.add (ε := ε) s x).1
        ∧ keysNodup (InMemoryRepository.update (ε := ε) s x).1
        ∧ keysNodup (InMemoryRepository.delete (ε := ε) s x).1)
    ∧ (∀ (s : Store Id Ev F) (k : Id), keysNodup s →
        (s.countP fun p => decide (p.1 = k)) ≤ 1)
    ∧ (∀ (s : Store Id Ev F) (x : AggregateRoot Id Ev F) (k : Id),
        hmGet k (InMemoryRepository.add (ε := ε) s x).1
          = if k = x.id then some x else hmGet k s)
    ∧ (∀ (s : Store Id Ev F) (x : AggregateRoot Id Ev F),
        InMemoryRepository.update (ε := ε) s x
          = InMemoryRepository.add (ε := ε) s x)
    ∧ (∀ (s : Store Id Ev F) (x y : AggregateRoot Id Ev F), y.id = x.id →
        hmGet y.id (InMemoryRepository.update (ε := ε)
          (InMemoryRepository.add (ε := ε) s x).1 y).1 = some y)
    ∧ (∀ (s : Store Id Ev F) (x : AggregateRoot Id Ev F), keysNodup s →
        hmGet x.id (InMemoryRepository.delete (ε := ε) s x).1 = none)
    ∧ (∀ (s : Store Id Ev F) (x : AggregateRoot Id Ev F),
        (InMemoryRepository.delete (ε := ε) s x).2 = .ok ())
    ∧ (∀ (s : Store Id Ev F) (x : AggregateRoot Id Ev F),
        hmGet x.id s = none → (InMemoryRepository.delete (ε := ε) s x).1 = s) := by
  refine ⟨?_, ?_, ?_, ?_, ?_, ?_, ?_, ?_, ?_⟩
  · simp [keysNodup]
  · intro s x hs
    exact ⟨keysNodup_hmInsert x.id x s hs, keysNodup_hmInsert x.id x s hs,
      keysNodup_hmRemove x.id s hs⟩
  · intro s k hs
    exact keysNodup_atMostOne s k hs
  · intro s x k
    simpa [InMemoryRepository.add] using hmGet_hmInsert x.id k x s
  · intro s x
    rfl
  · intro s x y hxy
    simp [InMemoryRepository.update, InMemoryRepository.add,
      hmGet_hmInsert_self]
  · intro s x hs
    simpa [InMemoryRepository.delete] using hmGet_hmRemove_self x.id s hs
  · intro s x
    rfl
  · intro s x habs
    simpa [InMemoryRepository.delete] using hmRemove_not_mem x.id s habs

/-- C5 witness: a concrete one-entry store with distinct keys; delete removes
the entry and a delete on an absent identity leaves the store unchanged. -/
theorem claim_C5_witness :
    hmGet 1 (InMemoryRepository.delete (ε := Unit)
        ([(1, ⟨1, (), []⟩)] : Store Nat Nat Unit) ⟨1, (), []⟩).1 = none
    ∧ (InMemoryRepository.delete (ε := Unit)
        ([(1, ⟨1, (), []⟩)] : Store Nat Nat Unit) ⟨2, (), []⟩).1
      = [(1, ⟨1, (), []⟩)] := by
  constructor
  · exact claim_C5.2.2.2.2.2.2.1 [(1, ⟨1, (), []⟩)] ⟨1, (), []⟩
      (by simp [keysNodup])
  · exact claim_C5.2.2.2.2.2.2.2.2 [(1, ⟨1, (), []⟩)] ⟨2, (), []⟩ (by rfl)

/-- C6: `add_range`/`update_range`/`delete_range` apply the corresponding
singular operation to each element in list order (`runOk` is exactly that
sequential application); when every call succeeds the batch returns the
results in order, and on the first failing element the batch returns that
error with the state as of the failing call — earlier element operations
stay committed, later elements are never processed (the result does not
depend on `l2`). -/
theorem claim_C6 :
    (∀ (add1 : σ → T → σ × Except ε T) (s s1 : σ) (l vs : List T),
        runOk add1 s l = some (s1, vs) →
        Repository.add_range add1 s l = (s1, .ok vs))
    ∧ (∀ (add1 : σ → T → σ × Except ε T) (s s1 s1x : σ) (l1 l2 vs : List T)
        (x : T) (err : ε),
        runOk add1 s l1 = some (s1, vs) → add1 s1 x = (s1x, .error err) →
        Repository.add_range add1 s (l1 ++ x :: l2) = (s1x, .error err))
    ∧ (∀ (update1 : σ → T → σ × Except ε T) (s s1 : σ) (l vs : List T),
        runOk update1 s l = some (s1, vs) →
        Repository.update_range update1 s l = (s1, .ok vs))
    ∧ (∀ (update1 : σ → T → σ × Except ε T) (s s1 s1x : σ) (l1 l2 vs : List T)
        (x : T) (err : ε),
        runOk update1 s l1 = some (s1, vs) →
        update1 s1 x = (s1x, .error err) →
        Repository.update_range update1 s (l1 ++ x :: l2) = (s1x, .error err))
    ∧ (∀ (delete1 : σ → T → σ × Except ε Unit) (s s1 : σ) (l : List T)
        (vs : List Unit),
        runOk delete1 s l = some (s1, vs) →
        Repository.delete_range delete1 s l = (s1, .ok ()))
    ∧ (∀ (delete1 : σ → T → σ × Except ε Unit) (s s1 s1x : σ) (l1 l2 : List T)
        (vs : List Unit) (x : T) (err : ε),
        runOk delete1 s l1 = some (s1, vs) →
        delete1 s1 x = (s1x, .error err) →
        Repository.delete_range delete1 s (l1 ++ x :: l2)
          = (s1x, .error err)) := by
  refine ⟨?_, ?_, ?_, ?_, ?_, ?_⟩
  · intro add1 s s1 l vs h
    exact add_range_runOk add1 s s1 l vs h
  · intro add1 s s1 s1x l1 l2 vs x err hpre hx
    exact add_range_fail add1 s s1 s1x l1 l2 vs x err hpre hx
  · intro update1 s s1 l vs h
    exact update_range_runOk update1 s s1 l vs h
  · intro update1 s s1 s1x l1 l2 vs x err hpre hx
    exact update_range_fail update1 s s1 s1x l1 l2 vs x err hpre hx
  · intro delete1 s s1 l vs h
    exact delete_range_runOk delete1 s s1 l vs h
  · intro delete1 s s1 s1x l1 l2 vs x err hpre hx
    exact delete_range_fail delete1 s s1 s1x l1 l2 vs x err hpre hx

/-- A singular repository operation for the C6 witness: fails on element `0`
with error `7`, otherwise accumulates the element into the state. -/
def wOp : Nat → Nat → Nat × Except Nat Nat :=
  fun s x => if x = 0 then (s, .error 7) else (s + x, .ok x)

/-- C6 witness: the batch `[1, 2] ++ 0 :: [3]` fails on `0` with error `7`,
keeping the state `3` built from the committed prefix `[1, 2]`; element `3`
is never processed. -/
theorem claim_C6_witness :
    Repository.add_range wOp 0 ([1, 2] ++ 0 :: [3]) = (3, .error 7) :=
  claim_C6.2.1 wOp 0 3 3 [1, 2] [3] [1, 2] 0 7 rfl rfl

/-- C7: starting from an aggregate with an empty buffer, registering
`e1, e2, e3` in that order and draining returns exactly `[e1, e2, e3]` in
FIFO order, leaves the buffer empty, and a second drain with no intervening
registration returns the empty sequence. -/
theorem claim_C7 (a : AggregateRoot Id Ev F) (e1 e2 e3 : Ev)
    (h : a.domain_events = []) :
    ((((a.register_domain_event e1).register_domain_event
        e2).register_domain_event e3).drain_domain_events).1 = [e1, e2, e3]
    ∧ ((((a.register_domain_event e1).register_domain_event
        e2).register_domain_event e3).drain_domain_events).2.domain_events = []
    ∧ (((((a.register_domain_event e1).register_domain_event
        e2).register_domain_event
        e3).drain_domain_events).2.drain_domain_events).1 = [] := by
  simp [AggregateRoot.register_domain_event, AggregateRoot.drain_domain_events,
    h]

/-- C7 witness: a concrete aggregate with an empty buffer, events `1, 2, 3`. -/
theorem claim_C7_witness :
    (((((⟨1, (), []⟩ : AggregateRoot Nat Nat
        Unit).register_domain_event 1).register_domain_event
        2).register_domain_event 3).drain_domain_events).1 = [1, 2, 3] :=
  (claim_C7 ⟨1, (), []⟩ 1 2 3 rfl).1

/-- C8: for entities of a derived-Entity struct type, `a == b` holds iff
`a.id() == b.id()`; in particular two entities with the same identity are
equal whatever their non-identity fields and event buffers hold. -/
theorem claim_C8 [DecidableEq Id] :
    (∀ (a b : AggregateRoot Id Ev F), a.entity_eq b = true ↔ a.id = b.id)
    ∧ (∀ (i : Id) (f1 f2 : F) (v1 v2 : List Ev),
        AggregateRoot.entity_eq ⟨i, f1, v1⟩ ⟨i, f2, v2⟩ = true) := by
  constructor
  · intro a b
    simp [AggregateRoot.entity_eq]
  · intro i f1 f2 v1 v2
    simp [AggregateRoot.entity_eq]

/-- C9: for the struct-derived `ValueObject` comparisons, equality and
ordering depend only on the `eq_component` fields (changing the
non-component field `fc` on either side changes nothing, in particular not
equality against an unmodified clone), and `partial_cmp` compares the
components in declared order: a non-`Equal` outcome on the first component
decides the result, otherwise the second component decides. -/
theorem claim_C9 :
    (∀ (cA : A → A → Option Ordering) (cB : B → B → Option Ordering)
        (x y : VO A B C) (u v : C),
        VO.pcmp cA cB { x with fc := u } { y with fc := v }
          = VO.pcmp cA cB x y)
    ∧ (∀ (cA : A → A → Option Ordering) (cB : B → B → Option Ordering)
        (x : VO A B C) (u : C),
        VO.vo_eq cA cB { x with fc := u } x = VO.vo_eq cA cB x x)
    ∧ (∀ (cA : A → A → Option Ordering) (cB : B → B → Option Ordering)
        (x y : VO A B C), cA x.fa y.fa ≠ some Ordering.eq →
        VO.pcmp cA cB x y = cA x.fa y.fa)
    ∧ (∀ (cA : A → A → Option Ordering) (cB : B → B → Option Ordering)
        (x y : VO A B C), cA x.fa y.fa = some Ordering.eq →
        VO.pcmp cA cB x y = cB x.fb y.fb) := by
  refine ⟨?_, ?_, ?_, ?_⟩
  · intro cA cB x y u v
    rfl
  · intro cA cB x u
    rfl
  · intro cA cB x y hne
    rcases hc : cA x.fa y.fa with _ | ord
    · simp [VO.pcmp, hc]
    · cases ord
      · simp [VO.pcmp, hc]
      · exact absurd hc hne
      · simp [VO.pcmp, hc]
  · intro cA cB x y heq
    rcases hc : cB x.fb y.fb with _ | ord
    · simp [VO.pcmp, heq, hc]
    · cases ord <;> simp [VO.pcmp, heq, hc]

/-- C9 witness: concrete value objects over `Nat` components; the first
component pair `(1, 2)` compares `lt`, which decides the ordering. -/
theorem claim_C9_witness :
    VO.pcmp natPcmp natPcmp (⟨1, 2, 3⟩ : VO Nat Nat Nat) ⟨2, 2, 9⟩
      = natPcmp 1 2 :=
  claim_C9.2.2.1 natPcmp natPcmp ⟨1, 2, 3⟩ ⟨2, 2, 9⟩ (by decide)

/-- C10: for a newtype-enum-derived `ValueObject`, two values of different
variants have no ordering (`partial_cmp` is `None`), hence compare unequal
under the derived equality, and the derived comparison is not total: there
is a pair of values incomparable in both directions. -/
theorem claim_C10 :
    (∀ (cA : A → A → Option Ordering) (cB : B → B → Option Ordering)
        (a : A) (b : B),
        NT.pcmp cA cB (.va a) (.vb b) = none
        ∧ NT.pcmp cA cB (.vb b) (.va a) = none)
    ∧ (∀ (cA : A → A → Option Ordering) (cB : B → B → Option Ordering)
        (a : A) (b : B),
        NT.vo_eq cA cB (.va a) (.vb b) = false
        ∧ NT.vo_eq cA cB (.vb b) (.va a) = false)
    ∧ (∃ x y : NT Nat Nat, NT.pcmp natPcmp natPcmp x y = none
        ∧ NT.pcmp natPcmp natPcmp y x = none) := by
  refine ⟨?_, ?_, ⟨.va 0, .vb 0, rfl, rfl⟩⟩
  · intro cA cB a b
    exact ⟨rfl, rfl⟩
  · intro cA cB a b
    exact ⟨rfl, rfl⟩

/-- C1 counterexample: the claim asserts every mutating operation of a
domain-event dispatch decorator drains the aggregate's pending events before
the underlying repository mutation call.  `RepositoryEx::add` violates it:
over the in-memory base repository, adding an aggregate with pending event
`7` persists the aggregate WITH the event still buffered (the base `add` ran
on the undrained aggregate; the events are only taken from the returned
aggregate afterwards). -/
theorem claim_C1_counterexample :
    (RepositoryEx.add (InMemoryRepository.add (ε := Unit)) recHandleEx
        ([] : Store Nat Nat Unit) ([] : List Nat) ⟨1, (), [7]⟩).1
      = [(1, ⟨1, (), [7]⟩)]
    ∧ (⟨1, (), [7]⟩ : AggregateRoot Nat Nat Unit).domain_events ≠ [] := by
  refine ⟨rfl, ?_⟩
  simp

/-- C1 amended: `DomainRepository` drains the pending events before the
underlying call for all three mutating operations (the snapshot handed to —
and, over the in-memory base, persisted by — the base repository has an
empty buffer, and the handled sequence is exactly the events registered
strictly before the call), and `RepositoryEx::delete` also handles the
pre-call events; but `RepositoryEx::add` and `RepositoryEx::update` perform
the underlying mutation first, on the still-undrained aggregate, and drain
from the returned aggregate afterwards. -/
theorem claim_C1_amended [DecidableEq Id] (s : Store Id Ev F) (log : List Ev)
    (a : AggregateRoot Id Ev F) :
    DomainRepository.add (InMemoryRepository.add (ε := ε)) recHandle s log a
      = (hmInsert a.id { a with domain_events := [] } s,
         log ++ a.domain_events, .ok { a with domain_events := [] })
    ∧ DomainRepository.update (InMemoryRepository.update (ε := ε)) recHandle
        s log a
      = (hmInsert a.id { a with domain_events := [] } s,
         log ++ a.domain_events, .ok { a with domain_events := [] })
    ∧ DomainRepository.delete (InMemoryRepository.delete (ε := ε)) recHandle
        s log a
      = (hmRemove a.id s, log ++ a.domain_events, .ok ())
    ∧ RepositoryEx.add (InMemoryRepository.add (ε := ε)) recHandleEx s log a
      = (hmInsert a.id a s, log ++ a.domain_events,
         .ok { a with domain_events := [] })
    ∧ RepositoryEx.update (InMemoryRepository.update (ε := ε)) recHandleEx
        s log a
      = (hmInsert a.id a s, log ++ a.domain_events,
         .ok { a with domain_events := [] })
    ∧ RepositoryEx.delete (InMemoryRepository.delete (ε := ε)) recHandleEx
        s log a
      = (hmRemove a.id s, log ++ a.domain_events, .ok ()) := by
  refine ⟨?_, ?_, ?_, ?_, ?_, ?_⟩
  · simp [DomainRepository.add, AggregateRoot.drain_domain_events,
      InMemoryRepository.add, handleLoop_rec]
  · simp [DomainRepository.update, AggregateRoot.drain_domain_events,
      InMemoryRepository.update, InMemoryRepository.add, handleLoop_rec]
  · simp [DomainRepository.delete, AggregateRoot.drain_domain_events,
      InMemoryRepository.delete, handleLoop_rec]
  · simp [RepositoryEx.add, RepositoryEx.apply_domain_events,
      AggregateRoot.take_domain_events, InMemoryRepository.add, applyLoop_rec]
  · simp [RepositoryEx.update, RepositoryEx.apply_domain_events,
      AggregateRoot.take_domain_events, InMemoryRepository.update,
      InMemoryRepository.add, applyLoop_rec]
  · simp [RepositoryEx.delete, RepositoryEx.apply_domain_events,
      AggregateRoot.take_domain_events, InMemoryRepository.delete,
      applyLoop_rec]

/-- C2: for the dispatch decorators' `add` over the in-memory base store:
when the base `add` has succeeded and the handler fails on drained event `e`
(after succeeding on the prefix `evs1`), the handler's error is returned to
the caller, the events `evs2` after the failing one are never delivered (the
result does not depend on `evs2` and the final handler state is the one
reached at the failing invocation), and the completed store mutation is not
undone: the entity is still persisted under its identity. -/
theorem claim_C2 [DecidableEq Id] (s : Store Id Ev F)
    (a : AggregateRoot Id Ev F) (evs1 evs2 : List Ev) (e : Ev) (err : ε)
    (hsplit : a.domain_events = evs1 ++ e :: evs2) :
    (∀ (handle : η → Ev → η × Except ε Unit) (h h1 he : η),
        handleLoop handle h evs1 = (h1, .ok ()) →
        handle h1 e = (he, .error err) →
        DomainRepository.add (InMemoryRepository.add (ε := ε)) handle s h a
          = (hmInsert a.id { a with domain_events := [] } s, he, .error err)
        ∧ hmGet a.id (DomainRepository.add (InMemoryRepository.add (ε := ε))
            handle s h a).1 = some { a with domain_events := [] })
    ∧ (∀ (handle : η → AggregateRoot Id Ev F → Ev →
          η × Except ε (AggregateRoot Id Ev F)) (h h1 he : η)
          (a1 : AggregateRoot Id Ev F),
        applyLoop handle h { a with domain_events := [] } evs1
          = (h1, .ok a1) →
        handle h1 a1 e = (he, .error err) →
        RepositoryEx.add (InMemoryRepository.add (ε := ε)) handle s h a
          = (hmInsert a.id a s, he, .error err)
        ∧ hmGet a.id (RepositoryEx.add (InMemoryRepository.add (ε := ε))
            handle s h a).1 = some a) := by
  constructor
  · intro handle h h1 he hok hfail
    have hloop := handleLoop_split handle evs1 evs2 e h h1 he err hok hfail
    have hmain : DomainRepository.add (InMemoryRepository.add (ε := ε))
        handle s h a
        = (hmInsert a.id { a with domain_events := [] } s, he, .error err) := by
      simp [DomainRepository.add, AggregateRoot.drain_domain_events,
        InMemoryRepository.add, hsplit, hloop]
    refine ⟨hmain, ?_⟩
    rw [hmain]
    exact hmGet_hmInsert_self a.id _ s
  · intro handle h h1 he a1 hok hfail
    have hloop := applyLoop_split handle evs1 evs2 e h h1 he
      { a with domain_events := [] } a1 err hok hfail
    have hmain : RepositoryEx.add (InMemoryRepository.add (ε := ε))
        handle s h a = (hmInsert a.id a s, he, .error err) := by
      simp [RepositoryEx.add, RepositoryEx.apply_domain_events,
        AggregateRoot.take_domain_events, InMemoryRepository.add, hsplit,
        hloop]
    refine ⟨hmain, ?_⟩
    rw [hmain]
    exact hmGet_hmInsert_self a.id a s

/-- A domain-event handler for the C2/C3 witnesses: counts invocations in
its state and fails with error `9` on event `5`. -/
def wHandle : Nat → Nat → Nat × Except Nat Unit :=
  fun h e => if e = 5 then (h + 1, .error 9) else (h + 1, .ok ())

/-- C2 witness: aggregate `1` with pending events `[4, 5, 6]` over the empty
store; the handler succeeds on `4`, fails on `5` with error `9`; `add`
returns error `9`, the handler ran exactly twice, event `6` was never
delivered, and the drained entity is still stored under key `1`. -/
theorem claim_C2_witness :
    DomainRepository.add (InMemoryRepository.add (ε := Nat)) wHandle
        ([] : Store Nat Nat Unit) 0 ⟨1, (), [4, 5, 6]⟩
      = ([(1, ⟨1, (), []⟩)], 2, .error 9)
    ∧ hmGet 1 (DomainRepository.add (InMemoryRepository.add (ε := Nat))
        wHandle ([] : Store Nat Nat Unit) 0 ⟨1, (), [4, 5, 6]⟩).1
      = some ⟨1, (), []⟩ := by
  have h := (claim_C2 ([] : Store Nat Nat Unit) ⟨1, (), [4, 5, 6]⟩ [4] [6] 5 9
    rfl).1 wHandle 0 1 2 rfl rfl
  exact ⟨h.1.trans rfl, h.2⟩

/-- C3 counterexample: the claim asserts that for every mutating operation of
the dispatch decorator, an error of the underlying repository operation is
propagated and the handler is never invoked for any event of that call.
`RepositoryEx::delete` violates it: with a base `delete` that always fails
with error `3` and a counting always-succeeding handler, deleting an
aggregate with pending event `7` propagates error `3` but the handler WAS
invoked (its state moved from `0` to `1`). -/
theorem claim_C3_counterexample :
    RepositoryEx.delete (fun (s : Nat) (_ : AggregateRoot Nat Nat Unit) =>
        (s, (.error 3 : Except Nat Unit)))
      (fun (h : Nat) (a : AggregateRoot Nat Nat Unit) (_ : Nat) =>
        (h + 1, (.ok a : Except Nat (AggregateRoot Nat Nat Unit))))
      0 0 ⟨1, (), [7]⟩ = (0, 1, .error 3)
    ∧ (1 : Nat) ≠ 0 := by
  refine ⟨rfl, ?_⟩
  simp

/-- C3 amended: when the underlying repository operation fails,
`DomainRepository`'s `add`/`update`/`delete` and `RepositoryEx`'s
`add`/`update` propagate the error to the caller with the handler state
untouched and the result independent of the handler (the handler is never
invoked); `RepositoryEx::delete`, by contrast, invokes the handler on all
pending events before the underlying delete (see the counterexample). -/
theorem claim_C3_amended
    (baseAdd : σ → AggregateRoot Id Ev F →
      σ × Except ε (AggregateRoot Id Ev F))
    (baseDelete : σ → AggregateRoot Id Ev F → σ × Except ε Unit)
    (s s' : σ) (h : η) (a : AggregateRoot Id Ev F) (err : ε) :
    (baseAdd s { a with domain_events := [] } = (s', .error err) →
      ∀ handle : η → Ev → η × Except ε Unit,
        DomainRepository.add baseAdd handle s h a = (s', h, .error err))
    ∧ (baseAdd s { a with domain_events := [] } = (s', .error err) →
      ∀ handle : η → Ev → η × Except ε Unit,
        DomainRepository.update baseAdd handle s h a = (s', h, .error err))
    ∧ (baseDelete s { a with domain_events := [] } = (s', .error err) →
      ∀ handle : η → Ev → η × Except ε Unit,
        DomainRepository.delete baseDelete handle s h a = (s', h, .error err))
    ∧ (baseAdd s a = (s', .error err) →
      ∀ handleEx : η → AggregateRoot Id Ev F → Ev →
          η × Except ε (AggregateRoot Id Ev F),
        RepositoryEx.add baseAdd handleEx s h a = (s', h, .error err))
    ∧ (baseAdd s a = (s', .error err) →
      ∀ handleEx : η → AggregateRoot Id Ev F → Ev →
          η × Except ε (AggregateRoot Id Ev F),
        RepositoryEx.update baseAdd handleEx s h a = (s', h, .error err)) := by
  refine ⟨?_, ?_, ?_, ?_, ?_⟩
  · intro hb handle
    simp [DomainRepository.add, AggregateRoot.drain_domain_events, hb]
  · intro hb handle
    simp [DomainRepository.update, AggregateRoot.drain_domain_events, hb]
  · intro hb handle
    simp [DomainRepository.delete, AggregateRoot.drain_domain_events, hb]
  · intro hb handleEx
    simp [RepositoryEx.add, hb]
  · intro hb handleEx
    simp [RepositoryEx.update, hb]

/-- C3 witness: a base `add` that always fails with error `3`; over aggregate
`1` with pending event `7`, `DomainRepository::add` returns error `3` with
handler state still `0` — the (counting, failing-on-`5`) handler never ran. -/
theorem claim_C3_witness :
    DomainRepository.add
      (fun (s : Nat) (_ : AggregateRoot Nat Nat Unit) =>
        (s, (.error 3 : Except Nat (AggregateRoot Nat Nat Unit))))
      wHandle 0 0 ⟨1, (), [7]⟩ = (0, 0, .error 3) :=
  (claim_C3_amended
    (fun (s : Nat) (_ : AggregateRoot Nat Nat Unit) =>
      (s, (.error 3 : Except Nat (AggregateRoot Nat Nat Unit))))
    (fun (s : Nat) (_ : AggregateRoot Nat Nat Unit) =>
      (s, (.error 3 : Except Nat Unit)))
    0 0 0 ⟨1, (), [7]⟩ 3).1 rfl wHandle
